import Mathlib

/-!
Verification development for the disaggregation matrix engine of
`openquake/hazardlib/calc/disagg.py`.

The code is shallowly embedded over exact rational arithmetic (`ℚ`).
External collaborators that live outside the embedded module
(`scipy.stats.truncnorm.cdf`, `openquake.hazardlib.stats.truncnorm_sf`,
`numpy.exp`, `openquake.hazardlib.tom.get_pnes`,
`openquake.hazardlib.geo.utils.cross_idl` / `get_longitudinal_extent`,
`openquake.hazardlib.gsim.base.to_distribution_values`) are passed as
function parameters, bundled in the `Ext` structure, exactly as the
source module consumes them.
-/

namespace OQDisagg

/-- numpy.searchsorted with the default side `left`: number of entries of
`a` strictly below `v` (for a sorted `a` this is the insertion index). -/
def searchsorted (a : List ℚ) (v : ℚ) : ℕ :=
  (a.filter (fun x => x < v)).length

/-- numpy.digitize for increasing bins with the default `right=False`:
number of bin edges that are ≤ `x`, so that `bins[i-1] ≤ x < bins[i]`. -/
def digitize (x : ℚ) (bins : List ℚ) : ℕ :=
  (bins.filter (fun b => b ≤ x)).length

/-- Python `min` over a nonempty sequence (0 on the empty list). -/
def listMin : List ℚ → ℚ
  | [] => 0
  | a :: t => t.foldl min a

/-- Python `max` over a nonempty sequence (0 on the empty list). -/
def listMax : List ℚ → ℚ
  | [] => 0
  | a :: t => t.foldl max a

/-- Python negative-index wraparound for a numpy axis of size `dim`:
an index `-k` addresses cell `dim - k`. -/
def pyWrap (i : ℤ) (dim : ℕ) : ℤ :=
  if i < 0 then (dim : ℤ) + i else i

/-- The last-bin correction of `_build_disagg_matrix`: an index equal to
the number of bins (produced by digitize for values on the last edge) is
folded into the last bin. -/
def foldLastBin (i : ℤ) (dim : ℕ) : ℤ :=
  if i = (dim : ℤ) then (dim : ℤ) - 1 else i

/-- The per-bin truncated-normal masses of `get_eps4`:
`eps_bands = tn.cdf(eps_edges[1:]) - tn.cdf(eps_edges[:-1])`,
with the external CDF passed as `cdf`. -/
def epsBands (cdf : ℚ → ℚ) (eps_edges : List ℚ) : List ℚ :=
  List.zipWith (fun a b => cdf b - cdf a) eps_edges eps_edges.tail

/-- The reverse cumulative masses of `get_eps4`:
`eps_cum = [eps_bands[e:].sum() for e in range(len(eps_bands))] + [0]`. -/
def epsCum (eps_bands : List ℚ) : List ℚ :=
  (List.range eps_bands.length).map (fun e => (eps_bands.drop e).sum) ++ [0]

/-- `get_eps4(eps_edges, truncation_level)`: returns
`(min(eps_edges), max(eps_edges), eps_bands, eps_cum)`.  The truncated
normal CDF `scipy.stats.truncnorm(-t, t).cdf` is the external parameter
`cdf` (the truncation level is absorbed into it). -/
def get_eps4 (cdf : ℚ → ℚ) (eps_edges : List ℚ) : ℚ × ℚ × List ℚ × List ℚ :=
  (listMin eps_edges, listMax eps_edges,
   epsBands cdf eps_edges, epsCum (epsBands cdf eps_edges))

/-- One row of `_disagg_eps(survival, bins, eps_bands, cum_bands)`:
the value placed in epsilon column `e` for a rupture with survival
probability `survival` located at searchsorted index `b`.  The source
sets `res[bins <= e, e] = eps_band` and
`res[bins == e+1, e] = survival - cum_bands[bins]`, leaving 0 elsewhere. -/
def disaggEpsRow (survival : ℚ) (b : ℕ) (eps_bands cum_bands : List ℚ)
    (e : ℕ) : ℚ :=
  if b ≤ e then eps_bands.getD e 0
  else if b = e + 1 then survival - cum_bands.getD b 0
  else 0

/-- One rupture row of a context recarray: the fields of the columnar
rupture records that `disagg.py` reads (`mag`, `rrup`, `clon`, `clat`,
`occurrence_rate`, `probs_occur`, `sids`, `src_id`). -/
structure Rupture where
  mag : ℚ
  rrup : ℚ
  clon : ℚ
  clat : ℚ
  occurrence_rate : ℚ
  probs_occur : List ℚ
  sid : ℕ
  src_id : ℕ
deriving DecidableEq, Repr

instance : Inhabited Rupture := ⟨⟨0, 0, 0, 0, 0, [], 0, 0⟩⟩

/-- The external collaborators consumed by the embedded functions, in the
shape the source calls them.  `cdf` is `scipy.stats.truncnorm(-t,t).cdf`;
`sf` is `truncnorm_sf(phi_b, ·)`; `expq` is `numpy.exp`; `getPnes` is
`openquake.hazardlib.tom.get_pnes` (rate, probs_occur, poes array, time
span); `crossIdl` and `gle` come from `geo.utils`; `toDist m` is
`to_distribution_values(·, imt_m)`, returning `none` for `-inf`
(zero hazard). -/
structure Ext where
  cdf : ℚ → ℚ
  sf : ℚ → ℚ
  expq : ℚ → ℚ
  getPnes : ℚ → List ℚ → (ℕ → ℕ → ℕ → ℚ) → ℚ → (ℕ → ℕ → ℕ → ℚ)
  crossIdl : ℚ → ℚ → Bool
  gle : ℚ → ℚ → ℚ
  toDist : ℕ → ℚ → Option ℚ

/-- The five bin-edge arrays `(mag, dist, lon, lat, eps)` passed to
`_disaggregate` as `bin_edges`. -/
structure BinEdges5 where
  mag : List ℚ
  dist : List ℚ
  lon : List ℚ
  lat : List ℚ
  eps : List ℚ

/-- The occurrence-model folding step of `_disaggregate`: starting from a
`pnes` array of ones, either every rupture is routed through the external
temporal-occurrence-model evaluator (`any probs_occur` nonempty), or the
whole batch takes the Poissonian fast lane
`pnes[:, e, m, p] *= exp(-occurrence_rate * poes[:, e, m, p] * time_span)`
over the valid index ranges `E × M × P`. -/
def foldPnes (ext : Ext) (ctx : List Rupture) (poes : ℕ → ℕ → ℕ → ℕ → ℚ)
    (time_span : ℚ) (E M P : ℕ) : ℕ → ℕ → ℕ → ℕ → ℚ :=
  if ctx.any (fun r => !r.probs_occur.isEmpty) then
    fun u e m p =>
      if e < E ∧ m < M ∧ p < P then
        ext.getPnes (ctx.getD u default).occurrence_rate
          (ctx.getD u default).probs_occur (poes u) time_span e m p
      else 1
  else
    fun u e m p =>
      if e < E ∧ m < M ∧ p < P then
        ext.expq (-(ctx.getD u default).occurrence_rate * poes u e m p *
          time_span)
      else 1

/-- The probability-of-exceedance array of `_disaggregate` (shape
`(U, E, M, P)`): thresholds of `-inf` (`none`) are skipped, the
standardized residual `lvls = (iml - mea[g, m]) / std[g, m]` is located in
the epsilon edges by searchsorted, and either the epsilon-star rule or the
`_disagg_eps` distribution fills the epsilon axis.  A located index of 0 in
epsilon-star mode addresses column `-1`, which numpy wraps to the last
column. -/
def disaggPoes (ext : Ext) (epsstar : Bool) (eps_edges : List ℚ)
    (mea std : ℕ → ℕ → ℕ → ℚ) (g : ℕ) (iml2 : ℕ → ℕ → Option ℚ) :
    ℕ → ℕ → ℕ → ℕ → ℚ :=
  let e4 := get_eps4 ext.cdf eps_edges
  let min_eps := e4.1
  let max_eps := e4.2.1
  let eps_bands := e4.2.2.1
  let cum_bands := e4.2.2.2
  let E := eps_bands.length
  fun u e m p =>
    match iml2 m p with
    | none => 0
    | some iml =>
      let lvl := (iml - mea g m u) / std g m u
      let b := searchsorted eps_edges lvl
      if epsstar then
        if (min_eps ≤ lvl ∧ lvl < max_eps) ∧ (e : ℤ) = pyWrap ((b : ℤ) - 1) E
        then ext.sf lvl else 0
      else
        if e < E then disaggEpsRow (ext.sf lvl) b eps_bands cum_bands e
        else 0

/-- The `BinData` named tuple `(dists, lons, lats, pnes)` passed from the
exceedance kernel to the matrix accumulator. -/
structure BinData where
  dists : List ℚ
  lons : List ℚ
  lats : List ℚ
  pnes : List (ℕ → ℕ → ℕ → ℚ)

/-- `_digitize_lons(lons, lon_bins)` for a single longitude value: when
the bins cross the international date line, a loop over edge pairs driven
by `get_longitudinal_extent` picks the bin; otherwise plain digitize
minus one. -/
def digitizeLons (ext : Ext) (x : ℚ) (lon_bins : List ℚ) : ℤ :=
  if ext.crossIdl (lon_bins.getD 0 0) (lon_bins.getD (lon_bins.length - 1) 0)
  then
    (List.range (lon_bins.length - 1)).foldl
      (fun acc i =>
        if 0 < ext.gle x (lon_bins.getD (i + 1) 0) ∧
            (i = 0 ∨ 0 ≤ ext.gle (lon_bins.getD i 0) x)
        then (i : ℤ) else acc) 0
  else (digitize x lon_bins : ℤ) - 1

/-- The distance/latitude bin index of `_build_disagg_matrix`:
digitize minus one, values equal to the number of bins folded into the
last bin, then Python negative-index wraparound at indexing time. -/
def distLatAddr (x : ℚ) (bins : List ℚ) : ℤ :=
  pyWrap (foldLastBin ((digitize x bins : ℤ) - 1) (bins.length - 1))
    (bins.length - 1)

/-- The longitude bin index of `_build_disagg_matrix`, from
`_digitize_lons` with the same folding and wraparound. -/
def lonAddr (ext : Ext) (x : ℚ) (bins : List ℚ) : ℤ :=
  pyWrap (foldLastBin (digitizeLons ext x bins) (bins.length - 1))
    (bins.length - 1)

/-- The `(distance, longitude, latitude)` cell addressed by one rupture in
`_build_disagg_matrix`. -/
def rowAddr (ext : Ext) (dist_bins lon_bins lat_bins : List ℚ)
    (dist lon lat : ℚ) : ℤ × ℤ × ℤ :=
  (distLatAddr dist dist_bins, lonAddr ext lon lon_bins,
   distLatAddr lat lat_bins)

/-- One zipped row of `_build_disagg_matrix`'s accumulation loop. -/
def BDRow : Type := ℚ × ℚ × ℚ × (ℕ → ℕ → ℕ → ℚ)

/-- The zipped rows `zip(dists_idx, lons_idx, lats_idx, bdata.pnes)`
(kept as raw coordinates; the indices are recomputed per row). -/
def bdRows (bdata : BinData) : List BDRow :=
  bdata.dists.zip (bdata.lons.zip (bdata.lats.zip bdata.pnes))

/-- One step of the accumulation loop
`mat6D[i_dist, i_lon, i_lat] *= pne`. -/
def bdStep (ext : Ext) (dist_bins lon_bins lat_bins : List ℚ)
    (mat : ℤ → ℤ → ℤ → ℕ → ℕ → ℕ → ℚ) (r : BDRow) :
    ℤ → ℤ → ℤ → ℕ → ℕ → ℕ → ℚ :=
  fun d lo la e m p =>
    if rowAddr ext dist_bins lon_bins lat_bins r.1 r.2.1 r.2.2.1 = (d, lo, la)
    then mat d lo la e m p * r.2.2.2 e m p
    else mat d lo la e m p

/-- `_build_disagg_matrix(bdata, bins)`: starts from a matrix of ones,
multiplies each rupture's `(E, M, P)` no-exceedance sub-array into the
cell addressed by its bin indices, and returns `1 - mat6D`. -/
def buildDisaggMatrix (ext : Ext) (bdata : BinData)
    (dist_bins lon_bins lat_bins _eps_bins : List ℚ) :
    ℤ → ℤ → ℤ → ℕ → ℕ → ℕ → ℚ :=
  let mat := (bdRows bdata).foldl (bdStep ext dist_bins lon_bins lat_bins)
    (fun _ _ _ _ _ _ => 1)
  fun d lo la e m p => 1 - mat d lo la e m p

/-- The per-rupture no-exceedance array of `_disaggregate` (`pnes`),
obtained by folding the occurrence model into the `poes` array. -/
def disaggPnes (ext : Ext) (time_span : ℚ) (epsstar : Bool)
    (ctx : List Rupture) (mea std : ℕ → ℕ → ℕ → ℚ) (g : ℕ)
    (iml2 : ℕ → ℕ → Option ℚ) (M P : ℕ) (be : BinEdges5) :
    ℕ → ℕ → ℕ → ℕ → ℚ :=
  foldPnes ext ctx (disaggPoes ext epsstar be.eps mea std g iml2) time_span
    (epsBands ext.cdf be.eps).length M P

/-- The `BinData(ctx.rrup, ctx.clon, ctx.clat, pnes)` built at the end of
`_disaggregate`. -/
def disaggBinData (ext : Ext) (time_span : ℚ) (epsstar : Bool)
    (ctx : List Rupture) (mea std : ℕ → ℕ → ℕ → ℚ) (g : ℕ)
    (iml2 : ℕ → ℕ → Option ℚ) (M P : ℕ) (be : BinEdges5) : BinData :=
  ⟨ctx.map (·.rrup), ctx.map (·.clon), ctx.map (·.clat),
   (List.range ctx.length).map
     (fun u => disaggPnes ext time_span epsstar ctx mea std g iml2 M P be u)⟩

/-- `_disaggregate(ctx, mea, std, cmaker, g, iml2, bin_edges, epsstar)`:
the exceedance kernel followed by the matrix accumulator.  `iml2` is the
`M × P` matrix of logarithmic intensities with `none` for `-inf`. -/
def disaggregate (ext : Ext) (time_span : ℚ) (epsstar : Bool)
    (ctx : List Rupture) (mea std : ℕ → ℕ → ℕ → ℚ) (g : ℕ)
    (iml2 : ℕ → ℕ → Option ℚ) (M P : ℕ) (be : BinEdges5) :
    ℤ → ℤ → ℤ → ℕ → ℕ → ℕ → ℚ :=
  buildDisaggMatrix ext
    (disaggBinData ext time_span epsstar ctx mea std g iml2 M P be)
    be.dist be.lon be.lat be.eps

/-- The mutually-exclusive bookkeeping held by a `Disaggregator` after
`init`: contiguous start/stop row ranges and the aligned weights. -/
structure SrcMutex where
  start : List ℕ
  stop : List ℕ
  weight : List ℚ

/-- Python slice `ctx[s1:s2]`. -/
def ctxSlice (ctx : List Rupture) (s : ℕ × ℕ) : List Rupture :=
  (ctx.drop s.1).take (s.2 - s.1)

/-- numpy slice `arr[:, :, s1:s2]` on a `(G, M, U)` array. -/
def meaSlice (a : ℕ → ℕ → ℕ → ℚ) (s : ℕ × ℕ) : ℕ → ℕ → ℕ → ℚ :=
  fun g m u => a g m (s.1 + u)

/-- `numpy.average(mats, weights=w, axis=0)`: the cell-wise weighted sum
divided by the total weight. -/
def numpyAverage (mats : List (ℤ → ℤ → ℤ → ℕ → ℕ → ℕ → ℚ))
    (weights : List ℚ) : ℤ → ℤ → ℤ → ℕ → ℕ → ℕ → ℚ :=
  fun d lo la e m p =>
    (List.zipWith (fun w mat => w * mat d lo la e m p) weights mats).sum /
      weights.sum

/-- `Disaggregator.disagg6D(iml2, g)`: converts the intensity thresholds
to the distribution scale per IMT, then either one `_disaggregate` run
(no `src_mutex`) or one run per contiguous source sub-range combined by
`numpy.average` with the stored weights. -/
def disagg6D (ext : Ext) (time_span : ℚ) (epsstar : Bool)
    (ctx : List Rupture) (mea std : ℕ → ℕ → ℕ → ℚ)
    (src_mutex : Option SrcMutex) (iml2 : ℕ → ℕ → ℚ) (M P : ℕ) (g : ℕ)
    (be : BinEdges5) : ℤ → ℤ → ℤ → ℕ → ℕ → ℕ → ℚ :=
  let imlog2 : ℕ → ℕ → Option ℚ := fun m p => ext.toDist m (iml2 m p)
  match src_mutex with
  | none => disaggregate ext time_span epsstar ctx mea std g imlog2 M P be
  | some sm =>
    let mats := (sm.start.zip sm.stop).map (fun s =>
      disaggregate ext time_span epsstar (ctxSlice ctx s) (meaSlice mea s)
        (meaSlice std s) g imlog2 M P be)
    numpyAverage mats sm.weight

/-- The recoverable no-ruptures condition
(`openquake.hazardlib.contexts.FarAwayRupture`). -/
inductive DisaggError where
  | FarAwayRupture
deriving DecidableEq, Repr

/-- The per-site context filtering of `Disaggregator.__init__`:
`ctxs = [ctx[ctx.sids == sid] for ctx in srcs_or_ctxs]` followed by
concatenation. -/
def filterCtxs (ctxs : List (List Rupture)) (sid : ℕ) : List Rupture :=
  (ctxs.map (fun c => c.filter (fun r => r.sid = sid))).flatten

/-- The magnitude-bin assignment of `Disaggregator.__init__`:
`searchsorted(mag_edges, mag) - 1`, with the residual `-1` folded into
bin 0. -/
def magIndexOf (mag_edges : List ℚ) (m : ℚ) : ℤ :=
  let i : ℤ := (searchsorted mag_edges m : ℤ) - 1
  if i = -1 then 0 else i

/-- The state a `Disaggregator` holds after construction: the filtered
concatenated context and the per-rupture magnitude-bin indices. -/
structure FullState where
  fullctx : List Rupture
  fullmagi : List ℤ
deriving DecidableEq, Repr

/-- `Disaggregator.__init__` on pre-built context batches: filters to the
target site, raises `FarAwayRupture` when nothing remains, otherwise
assigns every rupture its magnitude-bin index. -/
def mkDisaggregator (ctxs : List (List Rupture)) (sid : ℕ)
    (mag_edges : List ℚ) : Except DisaggError FullState :=
  let ctx := filterCtxs ctxs sid
  if ctx.length = 0 then .error .FarAwayRupture
  else .ok ⟨ctx, ctx.map (fun r => magIndexOf mag_edges r.mag)⟩

/-- The magnitude-bin slice `self.fullctx[self.fullmagi == magi]` taken
by `Disaggregator.init`. -/
def magSlice (st : FullState) (magi : ℤ) : List Rupture :=
  ((st.fullctx.zip st.fullmagi).filter (fun r => r.2 = magi)).map (·.1)

/-- `Disaggregator.init(magi, ...)`: selects the magnitude-bin slice and
raises `FarAwayRupture` when it is empty. -/
def initMag (st : FullState) (magi : ℤ) : Except DisaggError (List Rupture) :=
  let c := magSlice st magi
  if c.length = 0 then .error .FarAwayRupture else .ok c

/-- Half-even rounding to an integer, as Python's builtin `round`. -/
def roundHalfEven (q : ℚ) : ℤ :=
  let f := ⌊q⌋
  let r := q - f
  if r < 1/2 then f
  else if 1/2 < r then f + 1
  else if Even f then f else f + 1

/-- Python `round(q, 3)`: half-even rounding to three decimal places. -/
def round3 (q : ℚ) : ℚ :=
  (roundHalfEven (q * 1000) : ℚ) / 1000

/-- The magnitude-edge construction of `_build_bin_edges` (no user
override): `n1 = floor(min_mag/width)`, `n2 = ceil(max_mag/width)`,
incremented when `n2 == n1` or `max_mag >= round(width*n2, 3)`, and
`edges = width * arange(n1, n2+1)`. -/
def magEdges (mag_bin_width : ℚ) (mags : List ℚ) : List ℚ :=
  let min_mag := listMin mags
  let max_mag := listMax mags
  let n1 : ℤ := ⌊min_mag / mag_bin_width⌋
  let n2 : ℤ := ⌈max_mag / mag_bin_width⌉
  let n2' : ℤ :=
    if n2 = n1 ∨ round3 (mag_bin_width * n2) ≤ max_mag then n2 + 1 else n2
  (List.range (n2' - n1 + 1).toNat).map
    (fun k : ℕ => mag_bin_width * ((n1 : ℚ) + (k : ℚ)))

/-- A trivial instantiation of the external collaborators, used to
evaluate the embedded kernels on concrete inputs. -/
def extW : Ext where
  cdf := fun _ => 0
  sf := fun _ => 1
  expq := fun _ => 1
  getPnes := fun _ _ _ _ _ _ _ => 1
  crossIdl := fun _ _ => false
  gle := fun _ _ => 0
  toDist := fun _ q => some q

/-- A concrete Poissonian rupture (no `probs_occur`). -/
def rupW : Rupture := ⟨5, 1, 0, 0, 2, [], 0, 0⟩

/-- A concrete non-Poissonian rupture (with `probs_occur`). -/
def rupNP : Rupture := ⟨5, 1, 0, 0, 2, [1/2, 1/2], 0, 0⟩

/- ### helper lemmas on sums of list tails -/

theorem sum_ite_ge_eq_sum_drop (l : List ℚ) :
    ∀ b : ℕ, (∑ e ∈ Finset.range l.length,
      if b ≤ e then l.getD e 0 else 0) = (l.drop b).sum := by
  induction l with
  | nil => intro b; simp
  | cons a t ih =>
    intro b
    rw [List.length_cons, Finset.sum_range_succ']
    cases b with
    | zero =>
      simp only [Nat.zero_le, if_true, List.getD_cons_zero, List.getD_cons_succ,
        List.drop_zero, List.sum_cons]
      have := ih 0
      simp only [Nat.zero_le, if_true, List.drop_zero] at this
      rw [this]; ring
    | succ b' =>
      simp only [List.getD_cons_succ, List.getD_cons_zero, Nat.succ_le_succ_iff,
        List.drop_succ_cons]
      rw [ih b']
      simp [Nat.not_succ_le_zero]

theorem epsCum_getD (eps_bands : List ℚ) (b : ℕ) (hb : b ≤ eps_bands.length) :
    (epsCum eps_bands).getD b 0 = (eps_bands.drop b).sum := by
  unfold epsCum
  rcases Nat.lt_or_ge b eps_bands.length with h | h
  · rw [List.getD_append _ _ _ _ (by simpa using h)]
    rw [List.getD_eq_getElem _ _ (by simpa using h)]
    simp
  · have hbe : b = eps_bands.length := le_antisymm hb h
    subst hbe
    rw [List.getD_append_right _ _ _ _ (by simp)]
    simp

theorem epsCum_length (eps_bands : List ℚ) :
    (epsCum eps_bands).length = eps_bands.length + 1 := by
  simp [epsCum]

/-- Claim helper: the epsilon-mode row of `_disagg_eps` decomposes as the
sum of an indicator at column `b - 1` and the band masses at or above `b`. -/
theorem disaggEpsRow_split (survival : ℚ) (b : ℕ) (bands cum : List ℚ)
    (hb : 1 ≤ b) (e : ℕ) :
    disaggEpsRow survival b bands cum e =
      (if e = b - 1 then survival - cum.getD b 0 else 0) +
      (if b ≤ e then bands.getD e 0 else 0) := by
  unfold disaggEpsRow
  rcases Nat.lt_or_ge e b with h | h
  · have h1 : ¬ b ≤ e := Nat.not_le_of_lt h
    rcases Nat.lt_or_ge e (b - 1) with h2 | h2
    · have h3 : ¬ b = e + 1 := by omega
      have h4 : ¬ e = b - 1 := by omega
      rw [if_neg h1, if_neg h3, if_neg h4, if_neg h1]
      ring
    · have h5 : e = b - 1 := by omega
      have h6 : b = e + 1 := by omega
      rw [if_neg h1, if_pos h6, if_pos h5, if_neg h1]
      ring
  · have h1 : ¬ e = b - 1 := by omega
    have h2 : ¬ b = e + 1 := by omega
    rw [if_pos h, if_neg h1, if_pos h]
    ring

/- ### helper lemmas: searchsorted and digitize on sorted edge lists -/

theorem getD_mem (l : List ℚ) (j : ℕ) (hj : j < l.length) : l.getD j 0 ∈ l := by
  rw [List.getD_eq_getElem l 0 hj]
  exact List.getElem_mem hj

theorem searchsorted_le_length (l : List ℚ) (v : ℚ) :
    searchsorted l v ≤ l.length :=
  List.length_filter_le _ l

theorem digitize_le_length (x : ℚ) (l : List ℚ) :
    digitize x l ≤ l.length :=
  List.length_filter_le _ l

theorem searchsorted_bracket (l : List ℚ) (hl : l.Pairwise (· < ·)) (v : ℚ) :
    (∀ j, j < searchsorted l v → j < l.length → l.getD j 0 < v) ∧
    (∀ j, searchsorted l v ≤ j → j < l.length → v ≤ l.getD j 0) := by
  induction l with
  | nil => exact ⟨fun j _ hj => absurd hj (by simp), fun j _ hj => absurd hj (by simp)⟩
  | cons a t ih =>
    rw [List.pairwise_cons] at hl
    obtain ⟨ha, ht⟩ := hl
    have iht := ih ht
    by_cases h : a < v
    · have hss : searchsorted (a :: t) v = searchsorted t v + 1 := by
        unfold searchsorted
        simp [List.filter_cons, h]
      constructor
      · intro j hj hjl
        cases j with
        | zero => simpa using h
        | succ j' =>
          rw [List.getD_cons_succ]
          rw [hss] at hj
          exact iht.1 j' (by omega) (by simpa using hjl)
      · intro j hj hjl
        cases j with
        | zero => rw [hss] at hj; omega
        | succ j' =>
          rw [List.getD_cons_succ]
          rw [hss] at hj
          exact iht.2 j' (by omega) (by simpa using hjl)
    · have hzero : searchsorted (a :: t) v = 0 := by
        unfold searchsorted
        have : ∀ x ∈ a :: t, ¬ x < v := by
          intro x hx
          rcases List.mem_cons.mp hx with rfl | hx
          · exact h
          · exact fun hlt => h (lt_trans (ha x hx) hlt)
        rw [List.filter_eq_nil_iff.mpr (by simpa using this)]
        rfl
      refine ⟨fun j hj _ => by omega, fun j _ hjl => ?_⟩
      cases j with
      | zero => simpa using le_of_not_lt h
      | succ j' =>
        rw [List.getD_cons_succ]
        have hmem : t.getD j' 0 ∈ t := getD_mem t j' (by simpa using hjl)
        exact le_of_lt (lt_of_le_of_lt (le_of_not_lt h) (ha _ hmem))

theorem digitize_bracket (l : List ℚ) (hl : l.Pairwise (· < ·)) (v : ℚ) :
    (∀ j, j < digitize v l → j < l.length → l.getD j 0 ≤ v) ∧
    (∀ j, digitize v l ≤ j → j < l.length → v < l.getD j 0) := by
  induction l with
  | nil => exact ⟨fun j _ hj => absurd hj (by simp), fun j _ hj => absurd hj (by simp)⟩
  | cons a t ih =>
    rw [List.pairwise_cons] at hl
    obtain ⟨ha, ht⟩ := hl
    have iht := ih ht
    by_cases h : a ≤ v
    · have hss : digitize v (a :: t) = digitize v t + 1 := by
        unfold digitize
        simp [List.filter_cons, h]
      constructor
      · intro j hj hjl
        cases j with
        | zero => simpa using h
        | succ j' =>
          rw [List.getD_cons_succ]
          rw [hss] at hj
          exact iht.1 j' (by omega) (by simpa using hjl)
      · intro j hj hjl
        cases j with
        | zero => rw [hss] at hj; omega
        | succ j' =>
          rw [List.getD_cons_succ]
          rw [hss] at hj
          exact iht.2 j' (by omega) (by simpa using hjl)
    · have hzero : digitize v (a :: t) = 0 := by
        unfold digitize
        have : ∀ x ∈ a :: t, ¬ x ≤ v := by
          intro x hx
          rcases List.mem_cons.mp hx with rfl | hx
          · exact h
          · exact fun hle => h (le_of_lt (lt_of_lt_of_le (ha x hx) hle))
        rw [List.filter_eq_nil_iff.mpr (by simpa using this)]
        rfl
      refine ⟨fun j hj _ => by omega, fun j _ hjl => ?_⟩
      cases j with
      | zero => simpa using lt_of_not_le h
      | succ j' =>
        rw [List.getD_cons_succ]
        have hmem : t.getD j' 0 ∈ t := getD_mem t j' (by simpa using hjl)
        exact lt_trans (lt_of_not_le h) (ha _ hmem)

theorem sorted_getD_lt (l : List ℚ) (hl : l.Pairwise (· < ·)) (i j : ℕ)
    (hij : i < j) (hj : j < l.length) : l.getD i 0 < l.getD j 0 := by
  rw [List.getD_eq_getElem l 0 (lt_trans hij hj), List.getD_eq_getElem l 0 hj]
  exact List.pairwise_iff_getElem.mp hl i j (lt_trans hij hj) hj hij

theorem digitize_last (l : List ℚ) (hl : l.Pairwise (· < ·)) :
    digitize (l.getD (l.length - 1) 0) l = l.length := by
  unfold digitize
  have hall : ∀ x ∈ l, x ≤ l.getD (l.length - 1) 0 := by
    intro x hx
    obtain ⟨i, hi, rfl⟩ := List.getElem_of_mem hx
    rw [← List.getD_eq_getElem l 0 hi]
    rcases Nat.lt_or_ge i (l.length - 1) with h | h
    · exact le_of_lt (sorted_getD_lt l hl i (l.length - 1) h
        (by omega))
    · have : i = l.length - 1 := by omega
      rw [this]
  rw [List.filter_eq_self.mpr (by simpa using hall)]

/- ### helper lemmas: telescoping band sums, products, weighted sums -/

theorem epsBands_length (f : ℚ → ℚ) (l : List ℚ) :
    (epsBands f l).length = l.length - 1 := by
  unfold epsBands
  simp [List.length_zipWith]

theorem epsBands_getD (f : ℚ → ℚ) (l : List ℚ) (e : ℕ)
    (he : e + 1 < l.length) :
    (epsBands f l).getD e 0 = f (l.getD (e + 1) 0) - f (l.getD e 0) := by
  have hlen : e < (epsBands f l).length := by rw [epsBands_length]; omega
  rw [List.getD_eq_getElem _ 0 hlen]
  unfold epsBands
  rw [List.getElem_zipWith]
  rw [List.getElem_tail]
  rw [List.getD_eq_getElem l 0 he, List.getD_eq_getElem l 0 (by omega)]

theorem epsBands_drop_sum (f : ℚ → ℚ) :
    ∀ (l : List ℚ) (b : ℕ), b + 1 ≤ l.length →
      ((epsBands f l).drop b).sum =
        f (l.getD (l.length - 1) 0) - f (l.getD b 0) := by
  intro l
  induction l with
  | nil => intro b hb; simp at hb
  | cons a t ih =>
    intro b hb
    cases t with
    | nil =>
      have hb0 : b = 0 := by simpa using hb
      subst hb0
      simp [epsBands]
    | cons c t' =>
      have hco : epsBands f (a :: c :: t') = (f c - f a) :: epsBands f (c :: t') := by
        rfl
      cases b with
      | zero =>
        rw [hco, List.drop_zero, List.sum_cons]
        have := ih 0 (by simp)
        rw [List.drop_zero] at this
        rw [this]
        have hlast : (a :: c :: t').getD ((a :: c :: t').length - 1) 0 =
            (c :: t').getD ((c :: t').length - 1) 0 := by
          have h1 : (a :: c :: t').length - 1 = ((c :: t').length - 1) + 1 := by
            simp
          rw [h1, List.getD_cons_succ]
        rw [hlast]
        simp only [List.getD_cons_zero]
        ring
      | succ b' =>
        rw [hco, List.drop_succ_cons]
        have hlen : b' + 1 ≤ (c :: t').length := by
          simp only [List.length_cons] at hb ⊢
          omega
        rw [ih b' hlen]
        have hlast : (a :: c :: t').getD ((a :: c :: t').length - 1) 0 =
            (c :: t').getD ((c :: t').length - 1) 0 := by
          have h1 : (a :: c :: t').length - 1 = ((c :: t').length - 1) + 1 := by
            simp
          rw [h1, List.getD_cons_succ]
        rw [hlast, List.getD_cons_succ]

theorem list_prod_unit (l : List ℚ) (h : ∀ x ∈ l, 0 ≤ x ∧ x ≤ 1) :
    0 ≤ l.prod ∧ l.prod ≤ 1 := by
  induction l with
  | nil => simp
  | cons a t ih =>
    have ha := h a (List.mem_cons_self a t)
    have ht := ih (fun x hx => h x (List.mem_cons_of_mem a hx))
    rw [List.prod_cons]
    constructor
    · exact mul_nonneg ha.1 ht.1
    · calc a * t.prod ≤ 1 * 1 := by
            apply mul_le_mul ha.2 ht.2 ht.1 zero_le_one
        _ = 1 := by ring

theorem list_sum_nonneg (l : List ℚ) (h : ∀ x ∈ l, 0 ≤ x) : 0 ≤ l.sum := by
  induction l with
  | nil => simp
  | cons a t ih =>
    rw [List.sum_cons]
    have := ih (fun x hx => h x (List.mem_cons_of_mem a hx))
    have := h a (List.mem_cons_self a t)
    linarith

theorem weighted_sum_bounds (ws : List ℚ) :
    ∀ xs : List ℚ, (∀ w ∈ ws, 0 ≤ w) → (∀ x ∈ xs, 0 ≤ x ∧ x ≤ 1) →
      0 ≤ (List.zipWith (fun w x => w * x) ws xs).sum ∧
      (List.zipWith (fun w x => w * x) ws xs).sum ≤ ws.sum := by
  induction ws with
  | nil => intro xs _ _; simp
  | cons w ws' ih =>
    intro xs hw hx
    cases xs with
    | nil =>
      simp only [List.zipWith_nil_right, List.sum_nil, List.sum_cons]
      have h1 : 0 ≤ ws'.sum :=
        list_sum_nonneg ws' (fun x hxx => hw x (List.mem_cons_of_mem w hxx))
      have h2 : 0 ≤ w := hw w (List.mem_cons_self w ws')
      exact ⟨le_refl 0, by linarith⟩
    | cons x xs' =>
      simp only [List.zipWith_cons_cons, List.sum_cons]
      have hw0 : 0 ≤ w := hw w (List.mem_cons_self w ws')
      have hx0 := hx x (List.mem_cons_self x xs')
      have ihr := ih xs' (fun a ha => hw a (List.mem_cons_of_mem w ha))
        (fun a ha => hx a (List.mem_cons_of_mem x ha))
      constructor
      · have : 0 ≤ w * x := mul_nonneg hw0 hx0.1
        linarith [ihr.1]
      · have : w * x ≤ w := by
          calc w * x ≤ w * 1 := by
                apply mul_le_mul_of_nonneg_left hx0.2 hw0
            _ = w := by ring
        linarith [ihr.2]

/- ### helper lemma: the matrix accumulator as a product over rows -/

theorem foldl_bdStep (ext : Ext) (dB loB laB : List ℚ) :
    ∀ (rows : List BDRow) (mat0 : ℤ → ℤ → ℤ → ℕ → ℕ → ℕ → ℚ)
      (d lo la : ℤ) (e m p : ℕ),
      (rows.foldl (bdStep ext dB loB laB) mat0) d lo la e m p =
        mat0 d lo la e m p *
          ((rows.filter (fun r =>
            rowAddr ext dB loB laB r.1 r.2.1 r.2.2.1 = (d, lo, la))).map
              (fun r => r.2.2.2 e m p)).prod := by
  intro rows
  induction rows with
  | nil => intro mat0 d lo la e m p; simp
  | cons r rest ih =>
    intro mat0 d lo la e m p
    rw [List.foldl_cons, ih, List.filter_cons]
    by_cases h : rowAddr ext dB loB laB r.1 r.2.1 r.2.2.1 = (d, lo, la)
    · rw [if_pos (decide_eq_true h), List.map_cons, List.prod_cons]
      unfold bdStep
      rw [if_pos h]
      ring
    · rw [if_neg (by simpa using h)]
      unfold bdStep
      rw [if_neg h]

theorem buildDisaggMatrix_cell (ext : Ext) (bdata : BinData)
    (dB loB laB eB : List ℚ) (d lo la : ℤ) (e m p : ℕ) :
    buildDisaggMatrix ext bdata dB loB laB eB d lo la e m p =
      1 - (((bdRows bdata).filter (fun r =>
        rowAddr ext dB loB laB r.1 r.2.1 r.2.2.1 = (d, lo, la))).map
          (fun r => r.2.2.2 e m p)).prod := by
  unfold buildDisaggMatrix
  rw [foldl_bdStep]
  ring

/- ### claim theorems -/

/-- C1: for every rupture whose standardized residual is located at a
searchsorted index `b` with `1 ≤ b ≤ E` (the number of epsilon bins), the
per-bin contributions produced by `_disagg_eps` — full band mass for every
bin at or above `b`, and `survival - eps_cum[b]` for the bin containing
the residual — sum over all epsilon bins to exactly the survival
probability at that residual. -/
theorem disagg_eps_sum_eq_survival (cdf : ℚ → ℚ) (eps_edges : List ℚ)
    (survival : ℚ) (b : ℕ) (hb1 : 1 ≤ b)
    (hb2 : b ≤ (epsBands cdf eps_edges).length) :
    ∑ e ∈ Finset.range (epsBands cdf eps_edges).length,
      disaggEpsRow survival b (epsBands cdf eps_edges)
        (epsCum (epsBands cdf eps_edges)) e = survival := by
  have hsplit : ∀ e ∈ Finset.range (epsBands cdf eps_edges).length,
      disaggEpsRow survival b (epsBands cdf eps_edges)
        (epsCum (epsBands cdf eps_edges)) e =
      (if e = b - 1 then
        survival - (epsCum (epsBands cdf eps_edges)).getD b 0 else 0) +
      (if b ≤ e then (epsBands cdf eps_edges).getD e 0 else 0) :=
    fun e _ => disaggEpsRow_split survival b _ _ hb1 e
  rw [Finset.sum_congr rfl hsplit, Finset.sum_add_distrib,
    sum_ite_ge_eq_sum_drop]
  have hmem : b - 1 ∈ Finset.range (epsBands cdf eps_edges).length := by
    rw [Finset.mem_range]; omega
  rw [Finset.sum_ite_eq' (Finset.range (epsBands cdf eps_edges).length)
    (b - 1) (fun _ => survival - (epsCum (epsBands cdf eps_edges)).getD b 0),
    if_pos hmem, epsCum_getD _ b hb2]
  ring

/-- C1 witness: a concrete instance with edges `[0, 1, 2]`, located index
`b = 1` and survival probability `5`. -/
theorem disagg_eps_sum_eq_survival_witness :
    1 ≤ (epsBands (fun x => x) [0, 1, 2]).length ∧
    ∑ e ∈ Finset.range (epsBands (fun x => x) [0, 1, 2]).length,
      disaggEpsRow 5 1 (epsBands (fun x => x) [0, 1, 2])
        (epsCum (epsBands (fun x => x) [0, 1, 2])) e = 5 :=
  ⟨by decide,
   disagg_eps_sum_eq_survival (fun x => x) [0, 1, 2] 5 1 (by decide)
     (by decide)⟩

/-- C5: `get_eps4` returns `eps_bands` whose entry `e` is the CDF
difference between consecutive epsilon edges, and `eps_cum` of length
`len(eps_bands) + 1` whose entry `e` is the suffix sum of `eps_bands`
from `e` onward with a trailing zero, so `eps_cum[0]` is the total band
mass and the last entry is `0`. -/
theorem get_eps4_spec (cdf : ℚ → ℚ) (eps_edges : List ℚ) :
    ((get_eps4 cdf eps_edges).2.2.1.length = eps_edges.length - 1) ∧
    (∀ e, e + 1 < eps_edges.length →
      (get_eps4 cdf eps_edges).2.2.1.getD e 0 =
        cdf (eps_edges.getD (e + 1) 0) - cdf (eps_edges.getD e 0)) ∧
    ((get_eps4 cdf eps_edges).2.2.2.length =
      (get_eps4 cdf eps_edges).2.2.1.length + 1) ∧
    (∀ e, e ≤ (get_eps4 cdf eps_edges).2.2.1.length →
      (get_eps4 cdf eps_edges).2.2.2.getD e 0 =
        ((get_eps4 cdf eps_edges).2.2.1.drop e).sum) ∧
    ((get_eps4 cdf eps_edges).2.2.2.getD 0 0 =
      (get_eps4 cdf eps_edges).2.2.1.sum) ∧
    (get_eps4 cdf eps_edges).2.2.2.getD
      (get_eps4 cdf eps_edges).2.2.1.length 0 = 0 := by
  simp only [get_eps4]
  refine ⟨epsBands_length cdf eps_edges,
    fun e he => epsBands_getD cdf eps_edges e he,
    epsCum_length (epsBands cdf eps_edges),
    fun e he => epsCum_getD (epsBands cdf eps_edges) e he, ?_, ?_⟩
  · rw [epsCum_getD (epsBands cdf eps_edges) 0 (Nat.zero_le _)]
    simp
  · rw [epsCum_getD (epsBands cdf eps_edges) _ (le_refl _)]
    simp

/-- C5 witness: the suffix-sum conjunct evaluated at a concrete instance. -/
theorem get_eps4_spec_witness :
    (0 : ℕ) + 1 < ([0, 1, 2] : List ℚ).length ∧
    (get_eps4 (fun x => x) [0, 1, 2]).2.2.1.getD 0 0 =
      (fun x : ℚ => x) (([0, 1, 2] : List ℚ).getD 1 0) -
        (fun x : ℚ => x) (([0, 1, 2] : List ℚ).getD 0 0) :=
  ⟨by decide,
   (get_eps4_spec (fun x => x) [0, 1, 2]).2.1 0 (by decide)⟩

/-- C2: when no rupture of the batch carries an occurrence-probability
distribution, the kernel computes every valid no-exceedance cell exactly
as `exp(-occurrence_rate * poe * time_span)`; when any rupture carries
one, every rupture of the batch is routed through the external temporal
occurrence-model evaluator. -/
theorem foldPnes_dispatch (ext : Ext) (ctx : List Rupture)
    (poes : ℕ → ℕ → ℕ → ℕ → ℚ) (time_span : ℚ) (E M P : ℕ) :
    ((∀ r ∈ ctx, r.probs_occur = []) →
      ∀ u e m p, e < E → m < M → p < P →
        foldPnes ext ctx poes time_span E M P u e m p =
          ext.expq (-(ctx.getD u default).occurrence_rate * poes u e m p *
            time_span)) ∧
    ((∃ r ∈ ctx, r.probs_occur ≠ []) →
      ∀ u e m p, e < E → m < M → p < P →
        foldPnes ext ctx poes time_span E M P u e m p =
          ext.getPnes (ctx.getD u default).occurrence_rate
            (ctx.getD u default).probs_occur (poes u) time_span e m p) := by
  constructor
  · intro hall u e m p he hm hp
    unfold foldPnes
    have hany : ¬ (ctx.any (fun r => !r.probs_occur.isEmpty) = true) := by
      rw [List.any_eq_true]
      rintro ⟨r, hr, hb⟩
      rw [hall r hr] at hb
      simp at hb
    rw [if_neg hany, if_pos ⟨he, hm, hp⟩]
  · rintro ⟨r, hr, hne⟩ u e m p he hm hp
    unfold foldPnes
    have hany : ctx.any (fun r => !r.probs_occur.isEmpty) = true := by
      rw [List.any_eq_true]
      exact ⟨r, hr, by simpa using hne⟩
    rw [if_pos hany, if_pos ⟨he, hm, hp⟩]

/-- C2 witness: a single Poissonian rupture takes the fast lane and a
batch containing a non-Poissonian rupture takes the evaluator. -/
theorem foldPnes_dispatch_witness :
    (∀ r ∈ [rupW], r.probs_occur = []) ∧
    foldPnes extW [rupW] (fun _ _ _ _ => 1/3) 2 1 1 1 0 0 0 0 =
      extW.expq (-(([rupW].getD 0 default).occurrence_rate) * (1/3) * 2) :=
  ⟨by decide,
   (foldPnes_dispatch extW [rupW] (fun _ _ _ _ => 1/3) 2 1 1 1).1
     (by decide) 0 0 0 0 (by decide) (by decide) (by decide)⟩

/-- C8: the Disaggregator raises `FarAwayRupture` if and only if zero
ruptures remain: at construction exactly when the concatenated contexts
filtered to the target site are empty, and at `init(magi)` exactly when
the slice assigned to magnitude bin `magi` is empty; both conditions are
the same recoverable error value and no partial result is produced. -/
theorem far_away_rupture_iff :
    (∀ (ctxs : List (List Rupture)) (sid : ℕ) (mag_edges : List ℚ),
      mkDisaggregator ctxs sid mag_edges = .error .FarAwayRupture ↔
        filterCtxs ctxs sid = []) ∧
    (∀ (st : FullState) (magi : ℤ),
      initMag st magi = .error .FarAwayRupture ↔ magSlice st magi = []) := by
  constructor
  · intro ctxs sid mag_edges
    unfold mkDisaggregator
    by_cases h : (filterCtxs ctxs sid).length = 0
    · rw [if_pos h]
      exact ⟨fun _ => List.length_eq_zero.mp h, fun _ => rfl⟩
    · rw [if_neg h]
      refine ⟨fun hc => Except.noConfusion hc, fun hnil => absurd ?_ h⟩
      rw [hnil]
      rfl
  · intro st magi
    unfold initMag
    by_cases h : (magSlice st magi).length = 0
    · rw [if_pos h]
      exact ⟨fun _ => List.length_eq_zero.mp h, fun _ => rfl⟩
    · rw [if_neg h]
      refine ⟨fun hc => Except.noConfusion hc, fun hnil => absurd ?_ h⟩
      rw [hnil]
      rfl

/-- C9 counterexample: a magnitude exactly on an interior edge.  The
construction assigns `searchsorted(edges, 5) - 1 = 0`, but the claimed
digitize convention `edges[i] ≤ m < edges[i+1]` fails at index 0 for
edges `[4, 5, 6]` and magnitude `5`. -/
theorem mag_bin_index_digitize_cex :
    magIndexOf [4, 5, 6] 5 = 0 ∧
    ¬ (([4, 5, 6] : List ℚ).getD 0 0 ≤ 5 ∧
       (5 : ℚ) < ([4, 5, 6] : List ℚ).getD 1 0) := by
  decide

/-- Helper: the searchsorted index of a value bracketed by two
consecutive entries of a sorted list. -/
theorem searchsorted_eq_of_bracket (l : List ℚ) (hp : l.Pairwise (· < ·))
    (m : ℚ) (i : ℕ) (hi : i + 1 < l.length) (h1 : l.getD i 0 < m)
    (h2 : m ≤ l.getD (i + 1) 0) : searchsorted l m = i + 1 := by
  have hb := searchsorted_bracket l hp m
  have hle := searchsorted_le_length l m
  rcases Nat.lt_trichotomy (searchsorted l m) (i + 1) with h | h | h
  · exact absurd (hb.2 i (by omega) (by omega)) (not_le_of_lt h1)
  · exact h
  · exact absurd (hb.1 (i + 1) (by omega) hi) (not_lt_of_le h2)

/-- C9 amended: at construction, the Disaggregator assigns every rupture
the index `searchsorted(mag_edges, mag) - 1` (half-open-HIGH bins:
`mag_edges[i] < m ≤ mag_edges[i+1]` yields index `i`), with the residual
`-1` for magnitudes on or below the first edge folded into bin 0. -/
theorem mag_bin_index_searchsorted (mag_edges : List ℚ) (m : ℚ)
    (hp : mag_edges.Pairwise (· < ·)) :
    (∀ (ctxs : List (List Rupture)) (sid : ℕ) (st : FullState),
      mkDisaggregator ctxs sid mag_edges = .ok st →
        st.fullmagi = st.fullctx.map (fun r => magIndexOf mag_edges r.mag)) ∧
    (m ≤ mag_edges.getD 0 0 → magIndexOf mag_edges m = 0) ∧
    (∀ i : ℕ, i + 1 < mag_edges.length →
      mag_edges.getD i 0 < m → m ≤ mag_edges.getD (i + 1) 0 →
      magIndexOf mag_edges m = (i : ℤ)) := by
  refine ⟨?_, ?_, ?_⟩
  · intro ctxs sid st hok
    unfold mkDisaggregator at hok
    by_cases h : (filterCtxs ctxs sid).length = 0
    · rw [if_pos h] at hok
      exact Except.noConfusion hok
    · rw [if_neg h] at hok
      cases hok
      rfl
  · intro hm
    have hzero : searchsorted mag_edges m = 0 := by
      unfold searchsorted
      have : ∀ x ∈ mag_edges, ¬ x < m := by
        intro x hx
        obtain ⟨j, hj, rfl⟩ := List.getElem_of_mem hx
        rw [← List.getD_eq_getElem mag_edges 0 hj]
        cases j with
        | zero => exact not_lt_of_le hm
        | succ j' =>
          have h0 : mag_edges.getD 0 0 < mag_edges.getD (j' + 1) 0 :=
            sorted_getD_lt mag_edges hp 0 (j' + 1) (by omega) hj
          exact not_lt_of_le (le_of_lt (lt_of_le_of_lt hm h0))
      rw [List.filter_eq_nil_iff.mpr (by simpa using this)]
      rfl
    unfold magIndexOf
    rw [hzero]
    rfl
  · intro i hi h1 h2
    have hss := searchsorted_eq_of_bracket mag_edges hp m i hi h1 h2
    unfold magIndexOf
    rw [hss]
    have hne : ((i : ℤ) + 1) - 1 ≠ -1 := by omega
    rw [if_neg (by push_cast; omega)]
    push_cast
    omega

/-- C9 witness: edges `[0, 2, 4]` and magnitude `1` land in bin 0 by
the half-open-high convention. -/
theorem mag_bin_index_searchsorted_witness :
    ([0, 2, 4] : List ℚ).Pairwise (· < ·) ∧
    magIndexOf [0, 2, 4] 1 = (0 : ℤ) :=
  ⟨by decide,
   (mag_bin_index_searchsorted [0, 2, 4] 1 (by decide)).2.2 0
     (by decide) (by decide) (by decide)⟩

/-- C3: `_build_disagg_matrix` starts from a matrix of ones, multiplies
each rupture's `(E, M, P)` no-exceedance sub-array into the single cell
addressed by its (distance, longitude, latitude) bin indices — ruptures
landing in the same cell combine multiplicatively — and returns 1 minus
the accumulated product; a cell receiving no rupture has exceedance
exactly 0, and a distance or latitude exactly equal to the last edge is
assigned to the last bin. -/
theorem build_disagg_matrix_spec (ext : Ext) (bdata : BinData)
    (dB loB laB eB : List ℚ) :
    (∀ (d lo la : ℤ) (e m p : ℕ),
      buildDisaggMatrix ext bdata dB loB laB eB d lo la e m p =
        1 - (((bdRows bdata).filter (fun r =>
          rowAddr ext dB loB laB r.1 r.2.1 r.2.2.1 = (d, lo, la))).map
            (fun r => r.2.2.2 e m p)).prod) ∧
    (∀ (d lo la : ℤ) (e m p : ℕ),
      ((bdRows bdata).filter (fun r =>
        rowAddr ext dB loB laB r.1 r.2.1 r.2.2.1 = (d, lo, la))) = [] →
      buildDisaggMatrix ext bdata dB loB laB eB d lo la e m p = 0) ∧
    (dB.Pairwise (· < ·) → 2 ≤ dB.length →
      distLatAddr (dB.getD (dB.length - 1) 0) dB = (dB.length : ℤ) - 2) ∧
    (laB.Pairwise (· < ·) → 2 ≤ laB.length →
      distLatAddr (laB.getD (laB.length - 1) 0) laB = (laB.length : ℤ) - 2) := by
  have hlast : ∀ (l : List ℚ), l.Pairwise (· < ·) → 2 ≤ l.length →
      distLatAddr (l.getD (l.length - 1) 0) l = (l.length : ℤ) - 2 := by
    intro l hp hlen
    unfold distLatAddr
    rw [digitize_last l hp]
    unfold foldLastBin pyWrap
    rw [if_pos (by omega : ((l.length : ℤ) - 1 = ((l.length - 1 : ℕ) : ℤ)))]
    rw [if_neg (by omega : ¬ (((l.length - 1 : ℕ) : ℤ) - 1 < 0))]
    omega
  refine ⟨fun d lo la e m p => buildDisaggMatrix_cell ext bdata dB loB laB eB
      d lo la e m p,
    fun d lo la e m p hnil => ?_,
    hlast dB, hlast laB⟩
  rw [buildDisaggMatrix_cell, hnil]
  simp

/-- C3 witness: a one-rupture `BinData` hitting cell `(0, 0, 0)` of
edges `[0, 1, 2]`, and the last-edge folding at distance 2. -/
theorem build_disagg_matrix_spec_witness :
    ([0, 1, 2] : List ℚ).Pairwise (· < ·) ∧
    distLatAddr (([0, 1, 2] : List ℚ).getD 2 0) [0, 1, 2] = (1 : ℤ) :=
  ⟨by decide,
   (build_disagg_matrix_spec extW ⟨[], [], [], []⟩ [0, 1, 2] [] [] [0, 1, 2]
     ).2.2.1 (by decide) (by decide)⟩

/-- C10: a distance strictly below the first edge is digitized to `-1`,
which the last-bin correction does not fold; Python wraparound then
addresses the LAST distance bin, so the rupture is silently multiplied
into the farthest bin rather than rejected or discarded. -/
theorem below_first_edge_last_bin (ext : Ext) (dB : List ℚ) (x : ℚ)
    (hp : dB.Pairwise (· < ·)) (hlen : 2 ≤ dB.length)
    (hx : x < dB.getD 0 0) :
    distLatAddr x dB = (dB.length : ℤ) - 2 ∧
    (∀ (lon lat : ℚ) (pne : ℕ → ℕ → ℕ → ℚ) (loB laB eB : List ℚ)
      (e m p : ℕ),
      buildDisaggMatrix ext ⟨[x], [lon], [lat], [pne]⟩ dB loB laB eB
        ((dB.length : ℤ) - 2) (lonAddr ext lon loB) (distLatAddr lat laB)
        e m p = 1 - pne e m p) := by
  have haddr : distLatAddr x dB = (dB.length : ℤ) - 2 := by
    unfold distLatAddr
    have hzero : digitize x dB = 0 := by
      unfold digitize
      have : ∀ b ∈ dB, ¬ b ≤ x := by
        intro b hb
        obtain ⟨j, hj, rfl⟩ := List.getElem_of_mem hb
        rw [← List.getD_eq_getElem dB 0 hj]
        cases j with
        | zero => exact not_le_of_lt hx
        | succ j' =>
          have h0 : dB.getD 0 0 < dB.getD (j' + 1) 0 :=
            sorted_getD_lt dB hp 0 (j' + 1) (by omega) hj
          exact not_le_of_lt (lt_trans hx h0)
      rw [List.filter_eq_nil_iff.mpr (by simpa using this)]
      rfl
    rw [hzero]
    unfold foldLastBin pyWrap
    rw [if_neg (by omega : ¬ (((0 : ℕ) : ℤ) - 1 = ((dB.length - 1 : ℕ) : ℤ)))]
    rw [if_pos (by omega : ((0 : ℕ) : ℤ) - 1 < 0)]
    omega
  refine ⟨haddr, fun lon lat pne loB laB eB e m p => ?_⟩
  rw [buildDisaggMatrix_cell]
  have hrow : bdRows ⟨[x], [lon], [lat], [pne]⟩ =
      [(x, lon, lat, pne)] := rfl
  rw [hrow]
  have hcond : rowAddr ext dB loB laB x lon lat =
      ((dB.length : ℤ) - 2, lonAddr ext lon loB, distLatAddr lat laB) := by
    unfold rowAddr
    rw [haddr]
  rw [List.filter_cons, if_pos (decide_eq_true hcond)]
  simp

/-- C10 witness: distance `-1` below edges `[0, 1, 2]` lands in the last
distance bin (index 1) and its no-exceedance array is multiplied there. -/
theorem below_first_edge_last_bin_witness :
    ([0, 1, 2] : List ℚ).Pairwise (· < ·) ∧ (-1 : ℚ) < 0 ∧
    distLatAddr (-1) [0, 1, 2] = (1 : ℤ) :=
  ⟨by decide, by decide,
   (below_first_edge_last_bin extW [0, 1, 2] (-1) (by decide) (by decide)
     (by decide)).1⟩

/- ### helper lemmas: list minima, maxima and mapped ranges -/

theorem foldl_min_le (t : List ℚ) :
    ∀ a : ℚ, t.foldl min a ≤ a ∧ ∀ x ∈ t, t.foldl min a ≤ x := by
  induction t with
  | nil => intro a; simp
  | cons b t' ih =>
    intro a
    refine ⟨le_trans (ih (min a b)).1 (min_le_left a b), ?_⟩
    intro x hx
    rcases List.mem_cons.mp hx with rfl | hx
    · exact le_trans (ih (min a x)).1 (min_le_right a x)
    · exact (ih (min a b)).2 x hx

theorem le_foldl_max (t : List ℚ) :
    ∀ a : ℚ, a ≤ t.foldl max a ∧ ∀ x ∈ t, x ≤ t.foldl max a := by
  induction t with
  | nil => intro a; simp
  | cons b t' ih =>
    intro a
    refine ⟨le_trans (le_max_left a b) (ih (max a b)).1, ?_⟩
    intro x hx
    rcases List.mem_cons.mp hx with rfl | hx
    · exact le_trans (le_max_right a x) (ih (max a x)).1
    · exact (ih (max a b)).2 x hx

theorem listMin_le (l : List ℚ) (m : ℚ) (hm : m ∈ l) : listMin l ≤ m := by
  cases l with
  | nil => cases hm
  | cons a t =>
    rcases List.mem_cons.mp hm with rfl | hm
    · exact (foldl_min_le t m).1
    · exact (foldl_min_le t a).2 m hm

theorem le_listMax (l : List ℚ) (m : ℚ) (hm : m ∈ l) : m ≤ listMax l := by
  cases l with
  | nil => cases hm
  | cons a t =>
    rcases List.mem_cons.mp hm with rfl | hm
    · exact (le_foldl_max t m).1
    · exact (le_foldl_max t a).2 m hm

theorem getD_map_range (N k : ℕ) (f : ℕ → ℚ) (hk : k < N) :
    ((List.range N).map f).getD k 0 = f k := by
  rw [List.getD_eq_getElem _ _ (by simpa using hk)]
  simp

theorem length_filter_lt_of_mem (l : List ℚ) (p : ℚ → Bool) (x : ℚ)
    (hx : x ∈ l) (hpx : ¬ p x = true) : (l.filter p).length < l.length := by
  by_contra h
  push_neg at h
  have hle := List.length_filter_le p l
  have hall : ∀ a ∈ l, p a = true := by
    rw [← List.filter_length_eq_length]
    omega
  exact hpx (hall x hx)

/-- C6 counterexample: bin width `3/2000` and magnitudes
`{1/2000, 3/2000}`.  Here `n1 = 0`, `n2 = 1` and
`round(width * n2, 3) = 0.002 > width * n2 = 0.0015`, so the guard does
not fire: the edges are `[0, 3/2000]`, the maximum magnitude sits exactly
on the last edge (not strictly inside), and digitizing it yields the
out-of-range last edge index. -/
theorem mag_edges_coverage_cex :
    magEdges (3/2000) [1/2000, 3/2000] = [0, 3/2000] ∧
    (3/2000 : ℚ) ∈ ([1/2000, 3/2000] : List ℚ) ∧
    ¬ ((3/2000 : ℚ) <
      (magEdges (3/2000) [1/2000, 3/2000]).getD
        ((magEdges (3/2000) [1/2000, 3/2000]).length - 1) 0) ∧
    ¬ (digitize (listMax [1/2000, 3/2000]) (magEdges (3/2000) [1/2000, 3/2000])
        < (magEdges (3/2000) [1/2000, 3/2000]).length) := by
  have hmax : listMax [1/2000, 3/2000] = 3/2000 := by
    unfold listMax
    simp only [List.foldl_cons, List.foldl_nil]
    rw [max_eq_right (by norm_num)]
  have hedges : magEdges (3/2000) [1/2000, 3/2000] = [0, 3/2000] := by
    unfold magEdges listMin listMax
    simp only [List.foldl_cons, List.foldl_nil]
    rw [min_eq_left (by norm_num), max_eq_right (by norm_num)]
    rw [show ⌊(1 : ℚ)/2000 / (3/2000)⌋ = 0 by norm_num]
    rw [show ⌈(3 : ℚ)/2000 / (3/2000)⌉ = 1 by norm_num]
    rw [if_neg ?side]
    case side =>
      push_neg
      refine ⟨by norm_num, ?_⟩
      rw [show round3 ((3 : ℚ)/2000 * ((1 : ℤ) : ℚ)) = 1/500 by
        unfold round3 roundHalfEven
        norm_num]
      norm_num
    rw [show ((1 : ℤ) - 0 + 1).toNat = 2 from rfl,
      show List.range 2 = [0, 1] from rfl]
    norm_num
  have hdig : digitize (3/2000) [0, 3/2000] = 2 := by
    unfold digitize
    rw [List.filter_cons,
      if_pos (decide_eq_true (by norm_num : (0 : ℚ) ≤ 3/2000))]
    rw [List.filter_cons,
      if_pos (decide_eq_true (by norm_num : (3/2000 : ℚ) ≤ 3/2000))]
    rfl
  refine ⟨hedges, by norm_num, ?_, ?_⟩
  · rw [hedges]
    norm_num
  · rw [hedges, hmax, hdig]
    norm_num

/-- C6 amended: the magnitude edges are
`width * range(n1, n2+1)` with `n1 = floor(min/width)`,
`n2 = ceil(max/width)` incremented when `n2 == n1` or
`max >= round(width*n2, 3)`; PROVIDED the 3-decimal rounding does not
round `width*n2` upward (in particular whenever `width*n2` has at most
three decimal places), every magnitude lies in
`[mag_edges[0], mag_edges[-1])` and digitizing the maximum never yields
the last edge index. -/
theorem mag_edges_coverage (w : ℚ) (mags : List ℚ) (hw : 0 < w)
    (hne : mags ≠ [])
    (hround : round3 (w * (⌈listMax mags / w⌉ : ℤ)) ≤
      w * (⌈listMax mags / w⌉ : ℤ)) :
    (∀ m ∈ mags, (magEdges w mags).getD 0 0 ≤ m ∧
      m < (magEdges w mags).getD ((magEdges w mags).length - 1) 0) ∧
    digitize (listMax mags) (magEdges w mags) < (magEdges w mags).length := by
  have hdef : magEdges w mags =
      (List.range
        (((if ⌈listMax mags / w⌉ = ⌊listMin mags / w⌋ ∨
              round3 (w * (⌈listMax mags / w⌉ : ℤ)) ≤ listMax mags
            then ⌈listMax mags / w⌉ + 1 else ⌈listMax mags / w⌉) -
          ⌊listMin mags / w⌋ + 1).toNat)).map
        (fun k : ℕ => w * ((⌊listMin mags / w⌋ : ℚ) + (k : ℚ))) := rfl
  obtain ⟨a, t, rfl⟩ := List.exists_cons_of_ne_nil hne
  set mn := listMin (a :: t) with hmn
  set mx := listMax (a :: t) with hmx
  set n1 : ℤ := ⌊mn / w⌋ with hn1
  set n2 : ℤ := ⌈mx / w⌉ with hn2
  set n2' : ℤ := if n2 = n1 ∨ round3 (w * (n2 : ℤ)) ≤ mx then n2 + 1 else n2
    with hn2'
  have hminmax : mn ≤ mx :=
    le_trans (listMin_le _ a (List.mem_cons_self a t))
      (le_listMax _ a (List.mem_cons_self a t))
  have h12 : n1 ≤ n2 := by
    have hq : (n1 : ℚ) ≤ (n2 : ℚ) := by
      calc (n1 : ℚ) ≤ mn / w := Int.floor_le _
        _ ≤ mx / w := (div_le_div_iff_of_pos_right hw).mpr hminmax
        _ ≤ (n2 : ℚ) := Int.le_ceil _
    exact_mod_cast hq
  have hn2'ge : n1 ≤ n2' := by
    rw [hn2']
    split <;> omega
  have hcast : (((n2' - n1).toNat : ℕ) : ℚ) = (n2' : ℚ) - (n1 : ℚ) := by
    have h := Int.toNat_of_nonneg (show (0 : ℤ) ≤ n2' - n1 by omega)
    calc (((n2' - n1).toNat : ℕ) : ℚ) = (((n2' - n1).toNat : ℤ) : ℚ) := by
          push_cast
          ring
      _ = ((n2' - n1 : ℤ) : ℚ) := by rw [h]
      _ = (n2' : ℚ) - (n1 : ℚ) := by push_cast; ring
  have hmaxlt : mx < w * (n2' : ℚ) := by
    rw [hn2']
    by_cases hc : n2 = n1 ∨ round3 (w * (n2 : ℤ)) ≤ mx
    · rw [if_pos hc]
      have hceil : mx / w ≤ (n2 : ℚ) := Int.le_ceil _
      have h1 : mx ≤ w * (n2 : ℚ) := by
        calc mx = mx / w * w := (div_mul_cancel₀ mx (ne_of_gt hw)).symm
          _ ≤ (n2 : ℚ) * w := mul_le_mul_of_nonneg_right hceil (le_of_lt hw)
          _ = w * (n2 : ℚ) := mul_comm _ _
      have h2 : w * (n2 : ℚ) < w * ((n2 : ℚ) + 1) :=
        mul_lt_mul_of_pos_left (lt_add_one _) hw
      push_cast
      exact lt_of_le_of_lt h1 h2
    · rw [if_neg hc]
      push_neg at hc
      exact lt_of_lt_of_le hc.2 hround
  have hlen : (magEdges w (a :: t)).length = (n2' - n1 + 1).toNat := by
    rw [hdef]
    simp
  have hhead : (magEdges w (a :: t)).getD 0 0 = w * (n1 : ℚ) := by
    rw [hdef, getD_map_range _ 0 _ (by omega)]
    norm_num
  have hlast : (magEdges w (a :: t)).getD
      ((magEdges w (a :: t)).length - 1) 0 = w * (n2' : ℚ) := by
    rw [hlen, hdef]
    have hidx : (n2' - n1 + 1).toNat - 1 = (n2' - n1).toNat := by omega
    rw [hidx, getD_map_range _ _ _ (by omega), hcast]
    ring
  have hheadle : w * (n1 : ℚ) ≤ mn := by
    calc w * (n1 : ℚ) ≤ w * (mn / w) :=
          mul_le_mul_of_nonneg_left (Int.floor_le _) (le_of_lt hw)
      _ = mn := by rw [mul_comm, div_mul_cancel₀ _ (ne_of_gt hw)]
  constructor
  · intro m hm
    constructor
    · rw [hhead]
      exact le_trans hheadle (listMin_le _ m hm)
    · rw [hlast]
      exact lt_of_le_of_lt (le_listMax _ m hm) hmaxlt
  · have hmem : w * (n2' : ℚ) ∈ magEdges w (a :: t) := by
      rw [hdef]
      apply List.mem_map.mpr
      refine ⟨(n2' - n1).toNat, List.mem_range.mpr (by omega), ?_⟩
      rw [hcast]
      ring
    unfold digitize
    apply length_filter_lt_of_mem _ _ (w * (n2' : ℚ)) hmem
    simp only [decide_eq_true_eq]
    exact not_le_of_lt hmaxlt

/-- C6 witness: width `1/2` (a multiple of `0.001`, so the rounding
guard is exact) and magnitudes `{1, 2}`. -/
theorem mag_edges_coverage_witness :
    (0 : ℚ) < 1/2 ∧ ([1, 2] : List ℚ) ≠ [] ∧
    (∀ m ∈ ([1, 2] : List ℚ), (magEdges (1/2) [1, 2]).getD 0 0 ≤ m ∧
      m < (magEdges (1/2) [1, 2]).getD ((magEdges (1/2) [1, 2]).length - 1) 0) ∧
    digitize (listMax [1, 2]) (magEdges (1/2) [1, 2]) <
      (magEdges (1/2) [1, 2]).length := by
  have hround : round3 ((1/2 : ℚ) * (⌈listMax [1, 2] / (1/2)⌉ : ℤ)) ≤
      (1/2 : ℚ) * (⌈listMax [1, 2] / (1/2)⌉ : ℤ) := by
    have hmax : listMax [1, 2] = 2 := by
      unfold listMax
      simp only [List.foldl_cons, List.foldl_nil]
      rw [max_eq_right (by norm_num)]
    rw [hmax, show ⌈(2 : ℚ) / (1/2)⌉ = 4 by norm_num]
    rw [show round3 ((1/2 : ℚ) * ((4 : ℤ) : ℚ)) = 2 by
      unfold round3 roundHalfEven
      norm_num]
    norm_num
  have h := mag_edges_coverage (1/2) [1, 2] (by norm_num) (by simp) hround
  exact ⟨by norm_num, by simp, h.1, h.2⟩

/-- C4: with mutually-exclusive source handling active, `disagg6D`
computes one matrix per contiguous `[start, stop)` source sub-range and
returns their cell-wise `numpy.average` with the stored weights aligned
one-to-one to the ordered ranges; for two ranges of weight `1/2` each the
result is the cell-wise arithmetic mean `(M1 + M2) / 2`, not the
independent-union composition `1 - (1 - M1)(1 - M2)`. -/
theorem disagg6D_src_mutex_average (ext : Ext) (time_span : ℚ)
    (epsstar : Bool) (ctx : List Rupture) (mea std : ℕ → ℕ → ℕ → ℚ)
    (sm : SrcMutex) (iml2 : ℕ → ℕ → ℚ) (M P : ℕ) (g : ℕ) (be : BinEdges5) :
    (∀ (d lo la : ℤ) (e m p : ℕ),
      disagg6D ext time_span epsstar ctx mea std (some sm) iml2 M P g be
          d lo la e m p =
        (List.zipWith (fun w s => w *
            disaggregate ext time_span epsstar (ctxSlice ctx s)
              (meaSlice mea s) (meaSlice std s) g
              (fun m' p' => ext.toDist m' (iml2 m' p')) M P be d lo la e m p)
          sm.weight (sm.start.zip sm.stop)).sum / sm.weight.sum) ∧
    (∀ a b c dd : ℕ, sm.start = [a, b] → sm.stop = [c, dd] →
      sm.weight = [1/2, 1/2] →
      ∀ (d lo la : ℤ) (e m p : ℕ),
        disagg6D ext time_span epsstar ctx mea std (some sm) iml2 M P g be
            d lo la e m p =
          (disaggregate ext time_span epsstar (ctxSlice ctx (a, c))
              (meaSlice mea (a, c)) (meaSlice std (a, c)) g
              (fun m' p' => ext.toDist m' (iml2 m' p')) M P be d lo la e m p +
            disaggregate ext time_span epsstar (ctxSlice ctx (b, dd))
              (meaSlice mea (b, dd)) (meaSlice std (b, dd)) g
              (fun m' p' => ext.toDist m' (iml2 m' p')) M P be d lo la e m p)
            / 2) := by
  have hmain : ∀ (d lo la : ℤ) (e m p : ℕ),
      disagg6D ext time_span epsstar ctx mea std (some sm) iml2 M P g be
          d lo la e m p =
        (List.zipWith (fun w s => w *
            disaggregate ext time_span epsstar (ctxSlice ctx s)
              (meaSlice mea s) (meaSlice std s) g
              (fun m' p' => ext.toDist m' (iml2 m' p')) M P be d lo la e m p)
          sm.weight (sm.start.zip sm.stop)).sum / sm.weight.sum := by
    intro d lo la e m p
    show numpyAverage _ sm.weight d lo la e m p = _
    unfold numpyAverage
    rw [List.zipWith_map_right]
  refine ⟨hmain, ?_⟩
  intro a b c dd hs ht hw d lo la e m p
  rw [hmain d lo la e m p, hs, ht, hw]
  show ((1/2 : ℚ) * _ + ((1/2 : ℚ) * _ + 0)) / (1/2 + (1/2 + 0)) = _
  ring

/-- C4 witness: a concrete two-range mutually-exclusive spec with equal
weights; the hypotheses of the equal-weight conjunct hold by `rfl`. -/
theorem disagg6D_src_mutex_average_witness :
    disagg6D extW 1 false [rupW, rupNP] (fun _ _ _ => 0) (fun _ _ _ => 1)
        (some ⟨[0, 1], [1, 2], [1/2, 1/2]⟩) (fun _ _ => 0) 1 1 0
        ⟨[], [0, 1], [0, 1], [0, 1], [-1, 0, 1]⟩ 0 0 0 0 0 0 =
      (disaggregate extW 1 false (ctxSlice [rupW, rupNP] (0, 1))
          (meaSlice (fun _ _ _ => 0) (0, 1)) (meaSlice (fun _ _ _ => 1) (0, 1))
          0 (fun m' p' => extW.toDist m' ((fun _ _ => (0 : ℚ)) m' p')) 1 1
          ⟨[], [0, 1], [0, 1], [0, 1], [-1, 0, 1]⟩ 0 0 0 0 0 0 +
        disaggregate extW 1 false (ctxSlice [rupW, rupNP] (1, 2))
          (meaSlice (fun _ _ _ => 0) (1, 2)) (meaSlice (fun _ _ _ => 1) (1, 2))
          0 (fun m' p' => extW.toDist m' ((fun _ _ => (0 : ℚ)) m' p')) 1 1
          ⟨[], [0, 1], [0, 1], [0, 1], [-1, 0, 1]⟩ 0 0 0 0 0 0) / 2 :=
  (disagg6D_src_mutex_average extW 1 false [rupW, rupNP] (fun _ _ _ => 0)
      (fun _ _ _ => 1) ⟨[0, 1], [1, 2], [1/2, 1/2]⟩ (fun _ _ => 0) 1 1 0
      ⟨[], [0, 1], [0, 1], [0, 1], [-1, 0, 1]⟩).2 0 1 1 2 rfl rfl rfl
    0 0 0 0 0 0

/- ### helper lemmas: nonnegativity of the exceedance kernel -/

theorem epsBands_getD_nonneg (cdf : ℚ → ℚ) (l : List ℚ)
    (hmono : Monotone cdf) (hl : l.Pairwise (· < ·)) (e : ℕ) :
    0 ≤ (epsBands cdf l).getD e 0 := by
  rcases Nat.lt_or_ge (e + 1) l.length with h | h
  · rw [epsBands_getD cdf l e h]
    have hlt := sorted_getD_lt l hl e (e + 1) (by omega) h
    have := hmono (le_of_lt hlt)
    linarith
  · rw [List.getD_eq_default _ _ (by rw [epsBands_length]; omega)]

theorem disaggEpsRow_nonneg (cdf : ℚ → ℚ) (eps_edges : List ℚ) (lvl : ℚ)
    (e : ℕ) (hmono : Monotone cdf) (hcdf1 : ∀ x, cdf x ≤ 1)
    (heps : eps_edges.Pairwise (· < ·))
    (he : e < (epsBands cdf eps_edges).length) :
    0 ≤ disaggEpsRow (1 - cdf lvl) (searchsorted eps_edges lvl)
        (epsBands cdf eps_edges) (epsCum (epsBands cdf eps_edges)) e := by
  unfold disaggEpsRow
  by_cases h1 : searchsorted eps_edges lvl ≤ e
  · rw [if_pos h1]
    exact epsBands_getD_nonneg cdf eps_edges hmono heps e
  · rw [if_neg h1]
    by_cases h2 : searchsorted eps_edges lvl = e + 1
    · rw [if_pos h2]
      have hE := epsBands_length cdf eps_edges
      have hble : searchsorted eps_edges lvl ≤ (epsBands cdf eps_edges).length := by
        omega
      rw [epsCum_getD _ _ hble, h2,
        epsBands_drop_sum cdf eps_edges (e + 1) (by omega)]
      have hlvl : lvl ≤ eps_edges.getD (e + 1) 0 := by
        have := (searchsorted_bracket eps_edges heps lvl).2 (e + 1)
          (by omega) (by omega)
        exact this
      have hmlvl := hmono hlvl
      have hlast := hcdf1 (eps_edges.getD (eps_edges.length - 1) 0)
      linarith
    · rw [if_neg h2]

theorem disaggPoes_nonneg (ext : Ext) (epsstar : Bool) (eps_edges : List ℚ)
    (mea std : ℕ → ℕ → ℕ → ℚ) (g : ℕ) (iml2 : ℕ → ℕ → Option ℚ)
    (hmono : Monotone ext.cdf) (hcdf1 : ∀ x, ext.cdf x ≤ 1)
    (hsf : ∀ x, ext.sf x = 1 - ext.cdf x)
    (heps : eps_edges.Pairwise (· < ·)) (u e m p : ℕ) :
    0 ≤ disaggPoes ext epsstar eps_edges mea std g iml2 u e m p := by
  unfold disaggPoes get_eps4
  cases hi : iml2 m p with
  | none => exact le_refl 0
  | some iml =>
    cases epsstar with
    | true =>
      show 0 ≤ if _ ∧ _ then ext.sf ((iml - mea g m u) / std g m u) else 0
      split
      · rw [hsf]
        have := hcdf1 ((iml - mea g m u) / std g m u)
        linarith
      · exact le_refl 0
    | false =>
      show 0 ≤ if e < (epsBands ext.cdf eps_edges).length then
        disaggEpsRow (ext.sf ((iml - mea g m u) / std g m u))
          (searchsorted eps_edges ((iml - mea g m u) / std g m u))
          (epsBands ext.cdf eps_edges) (epsCum (epsBands ext.cdf eps_edges)) e
        else 0
      split
      · rw [hsf]
        apply disaggEpsRow_nonneg ext.cdf eps_edges _ e hmono hcdf1 heps
        assumption
      · exact le_refl 0

theorem disaggPnes_bounds (ext : Ext) (time_span : ℚ) (epsstar : Bool)
    (ctx : List Rupture) (mea std : ℕ → ℕ → ℕ → ℚ) (g : ℕ)
    (iml2 : ℕ → ℕ → Option ℚ) (M P : ℕ) (be : BinEdges5)
    (hmono : Monotone ext.cdf) (hcdf1 : ∀ x, ext.cdf x ≤ 1)
    (hsf : ∀ x, ext.sf x = 1 - ext.cdf x)
    (hexp : ∀ x, x ≤ 0 → 0 < ext.expq x ∧ ext.expq x ≤ 1)
    (hget : ∀ r pr po t (e' m' p' : ℕ), 0 ≤ ext.getPnes r pr po t e' m' p' ∧
      ext.getPnes r pr po t e' m' p' ≤ 1)
    (hrate : ∀ r ∈ ctx, 0 ≤ r.occurrence_rate) (hts : 0 ≤ time_span)
    (heps : be.eps.Pairwise (· < ·)) (u e m p : ℕ) :
    0 ≤ disaggPnes ext time_span epsstar ctx mea std g iml2 M P be u e m p ∧
    disaggPnes ext time_span epsstar ctx mea std g iml2 M P be u e m p ≤ 1 := by
  have hrate0 : 0 ≤ (ctx.getD u default).occurrence_rate := by
    rcases Nat.lt_or_ge u ctx.length with hu | hu
    · rw [List.getD_eq_getElem ctx default hu]
      exact hrate _ (List.getElem_mem hu)
    · rw [List.getD_eq_default _ _ hu]
      exact le_refl 0
  unfold disaggPnes foldPnes
  by_cases hany : (ctx.any fun r => !r.probs_occur.isEmpty) = true
  · rw [if_pos hany]
    split
    · exact hget _ _ _ _ e m p
    · exact ⟨by norm_num, le_refl 1⟩
  · rw [if_neg hany]
    split
    · have hpoe := disaggPoes_nonneg ext epsstar be.eps mea std g iml2
        hmono hcdf1 hsf heps u e m p
      have hx : -(ctx.getD u default).occurrence_rate *
          disaggPoes ext epsstar be.eps mea std g iml2 u e m p *
          time_span ≤ 0 := by
        have h0 : 0 ≤ (ctx.getD u default).occurrence_rate *
            disaggPoes ext epsstar be.eps mea std g iml2 u e m p *
            time_span := mul_nonneg (mul_nonneg hrate0 hpoe) hts
        linarith
      exact ⟨le_of_lt (hexp _ hx).1, (hexp _ hx).2⟩
    · exact ⟨by norm_num, le_refl 1⟩

theorem disaggregate_cell_bounds (ext : Ext) (time_span : ℚ) (epsstar : Bool)
    (ctx : List Rupture) (mea std : ℕ → ℕ → ℕ → ℚ) (g : ℕ)
    (iml2 : ℕ → ℕ → Option ℚ) (M P : ℕ) (be : BinEdges5)
    (hmono : Monotone ext.cdf) (hcdf1 : ∀ x, ext.cdf x ≤ 1)
    (hsf : ∀ x, ext.sf x = 1 - ext.cdf x)
    (hexp : ∀ x, x ≤ 0 → 0 < ext.expq x ∧ ext.expq x ≤ 1)
    (hget : ∀ r pr po t (e' m' p' : ℕ), 0 ≤ ext.getPnes r pr po t e' m' p' ∧
      ext.getPnes r pr po t e' m' p' ≤ 1)
    (hrate : ∀ r ∈ ctx, 0 ≤ r.occurrence_rate) (hts : 0 ≤ time_span)
    (heps : be.eps.Pairwise (· < ·)) (d lo la : ℤ) (e m p : ℕ) :
    0 ≤ disaggregate ext time_span epsstar ctx mea std g iml2 M P be
        d lo la e m p ∧
    disaggregate ext time_span epsstar ctx mea std g iml2 M P be
        d lo la e m p ≤ 1 := by
  unfold disaggregate
  rw [buildDisaggMatrix_cell]
  have hbound : ∀ x ∈ (((bdRows (disaggBinData ext time_span epsstar ctx mea
      std g iml2 M P be)).filter (fun r =>
        rowAddr ext be.dist be.lon be.lat r.1 r.2.1 r.2.2.1 =
          (d, lo, la))).map (fun r => r.2.2.2 e m p)),
      0 ≤ x ∧ x ≤ 1 := by
    intro x hx
    obtain ⟨r, hr, rfl⟩ := List.mem_map.mp hx
    have hrf := List.mem_of_mem_filter hr
    have h4 : r.2.2.2 ∈ (disaggBinData ext time_span epsstar ctx mea std g
        iml2 M P be).pnes := by
      unfold bdRows at hrf
      have h1 := List.of_mem_zip (show (r.1, r.2) ∈ _ from hrf)
      have h2 := List.of_mem_zip (show (r.2.1, r.2.2) ∈ _ from h1.2)
      have h3 := List.of_mem_zip (show (r.2.2.1, r.2.2.2) ∈ _ from h2.2)
      exact h3.2
    simp only [disaggBinData] at h4
    obtain ⟨u, _, heq⟩ := List.mem_map.mp h4
    rw [← heq]
    exact disaggPnes_bounds ext time_span epsstar ctx mea std g iml2 M P be
      hmono hcdf1 hsf hexp hget hrate hts heps u e m p
  have hprod := list_prod_unit _ hbound
  exact ⟨by linarith [hprod.2], by linarith [hprod.1]⟩

/-- C7: under the probabilistic hypotheses satisfied by the external
collaborators (a monotone truncated-normal CDF bounded by 1, its
survival function, an exponential mapping nonpositive arguments into
`(0, 1]`, an occurrence evaluator returning probabilities), non-negative
occurrence rates and a non-negative time span, every cell of every
matrix returned by `_disaggregate` and by `disagg6D` (both with and
without the mutually-exclusive weighted average) lies in `[0, 1]`, and
the `_disaggregate` cells equal 1 minus the product of the per-rupture
no-exceedance contributions landing in that cell.  (In exact arithmetic
no separate finiteness conditions on mean and standard deviation are
needed.) -/
theorem disagg_matrix_unit_interval (ext : Ext) (time_span : ℚ)
    (epsstar : Bool) (ctx : List Rupture) (mea std : ℕ → ℕ → ℕ → ℚ) (g : ℕ)
    (iml2 : ℕ → ℕ → Option ℚ) (M P : ℕ) (be : BinEdges5)
    (hmono : Monotone ext.cdf) (hcdf1 : ∀ x, ext.cdf x ≤ 1)
    (hsf : ∀ x, ext.sf x = 1 - ext.cdf x)
    (hexp : ∀ x, x ≤ 0 → 0 < ext.expq x ∧ ext.expq x ≤ 1)
    (hget : ∀ r pr po t (e' m' p' : ℕ), 0 ≤ ext.getPnes r pr po t e' m' p' ∧
      ext.getPnes r pr po t e' m' p' ≤ 1)
    (hrate : ∀ r ∈ ctx, 0 ≤ r.occurrence_rate) (hts : 0 ≤ time_span)
    (heps : be.eps.Pairwise (· < ·)) :
    (∀ (d lo la : ℤ) (e m p : ℕ),
      0 ≤ disaggregate ext time_span epsstar ctx mea std g iml2 M P be
          d lo la e m p ∧
      disaggregate ext time_span epsstar ctx mea std g iml2 M P be
          d lo la e m p ≤ 1) ∧
    (∀ (d lo la : ℤ) (e m p : ℕ),
      disaggregate ext time_span epsstar ctx mea std g iml2 M P be
          d lo la e m p =
        1 - (((bdRows (disaggBinData ext time_span epsstar ctx mea std g
          iml2 M P be)).filter (fun r =>
            rowAddr ext be.dist be.lon be.lat r.1 r.2.1 r.2.2.1 =
              (d, lo, la))).map (fun r => r.2.2.2 e m p)).prod) ∧
    (∀ (iml2raw : ℕ → ℕ → ℚ) (d lo la : ℤ) (e m p : ℕ),
      0 ≤ disagg6D ext time_span epsstar ctx mea std none iml2raw M P g be
          d lo la e m p ∧
      disagg6D ext time_span epsstar ctx mea std none iml2raw M P g be
          d lo la e m p ≤ 1) ∧
    (∀ (sm : SrcMutex) (iml2raw : ℕ → ℕ → ℚ),
      (∀ w ∈ sm.weight, 0 ≤ w) → 0 < sm.weight.sum →
      ∀ (d lo la : ℤ) (e m p : ℕ),
        0 ≤ disagg6D ext time_span epsstar ctx mea std (some sm) iml2raw
            M P g be d lo la e m p ∧
        disagg6D ext time_span epsstar ctx mea std (some sm) iml2raw
            M P g be d lo la e m p ≤ 1) := by
  refine ⟨fun d lo la e m p => disaggregate_cell_bounds ext time_span epsstar
      ctx mea std g iml2 M P be hmono hcdf1 hsf hexp hget hrate hts heps
      d lo la e m p,
    fun d lo la e m p => ?_, fun iml2raw d lo la e m p => ?_, ?_⟩
  · unfold disaggregate
    rw [buildDisaggMatrix_cell]
  · exact disaggregate_cell_bounds ext time_span epsstar ctx mea std g
      (fun m' p' => ext.toDist m' (iml2raw m' p')) M P be hmono hcdf1 hsf
      hexp hget hrate hts heps d lo la e m p
  · intro sm iml2raw hws hwsum d lo la e m p
    show 0 ≤ numpyAverage _ sm.weight d lo la e m p ∧
      numpyAverage _ sm.weight d lo la e m p ≤ 1
    unfold numpyAverage
    rw [← List.zipWith_map_right]
    have hx : ∀ x ∈ (((sm.start.zip sm.stop).map (fun s =>
        disaggregate ext time_span epsstar (ctxSlice ctx s) (meaSlice mea s)
          (meaSlice std s) g
          (fun m' p' => ext.toDist m' (iml2raw m' p')) M P be)).map
        (fun mat => mat d lo la e m p)), 0 ≤ x ∧ x ≤ 1 := by
      intro x hx
      obtain ⟨mat, hmat, rfl⟩ := List.mem_map.mp hx
      obtain ⟨s, _, rfl⟩ := List.mem_map.mp hmat
      have hrates : ∀ r ∈ ctxSlice ctx s, 0 ≤ r.occurrence_rate := by
        intro r hr
        exact hrate r (List.mem_of_mem_drop (List.mem_of_mem_take hr))
      exact disaggregate_cell_bounds ext time_span epsstar (ctxSlice ctx s)
        (meaSlice mea s) (meaSlice std s) g
        (fun m' p' => ext.toDist m' (iml2raw m' p')) M P be hmono hcdf1 hsf
        hexp hget hrates hts heps d lo la e m p
    have hsum := weighted_sum_bounds sm.weight _ hws hx
    constructor
    · exact div_nonneg hsum.1 (le_of_lt hwsum)
    · exact (div_le_one hwsum).mpr hsum.2

/-- C7 witness: the degenerate-but-admissible externals `cdf = 0`,
`sf = 1`, `exp = 1`, `getPnes = 1` with one Poissonian rupture. -/
theorem disagg_matrix_unit_interval_witness :
    ([-1, 0, 1] : List ℚ).Pairwise (· < ·) ∧
    (0 ≤ disaggregate extW 1 false [rupW] (fun _ _ _ => 0) (fun _ _ _ => 1)
        0 (fun _ _ => some 0) 1 1 ⟨[], [0, 1], [0, 1], [0, 1], [-1, 0, 1]⟩
        0 0 0 0 0 0 ∧
      disaggregate extW 1 false [rupW] (fun _ _ _ => 0) (fun _ _ _ => 1)
        0 (fun _ _ => some 0) 1 1 ⟨[], [0, 1], [0, 1], [0, 1], [-1, 0, 1]⟩
        0 0 0 0 0 0 ≤ 1) :=
  ⟨by decide,
   (disagg_matrix_unit_interval extW 1 false [rupW] (fun _ _ _ => 0)
      (fun _ _ _ => 1) 0 (fun _ _ => some 0) 1 1
      ⟨[], [0, 1], [0, 1], [0, 1], [-1, 0, 1]⟩
      (fun _ _ _ => le_refl 0) (fun _ => by show (0 : ℚ) ≤ 1; norm_num)
      (fun _ => by show (1 : ℚ) = 1 - 0; norm_num)
      (fun _ _ => by constructor <;> [show (0 : ℚ) < 1; show (1 : ℚ) ≤ 1] <;> norm_num)
      (fun _ _ _ _ _ _ _ => by
        constructor <;> [show (0 : ℚ) ≤ 1; show (1 : ℚ) ≤ 1] <;> norm_num)
      (fun r hr => by
        have : r = rupW := by simpa using hr
        rw [this]
        norm_num [rupW])
      (by norm_num) (by decide)).1 0 0 0 0 0 0⟩

end OQDisagg
